import Mathlib

/-!
Verification of the RNS (residue number system) prime generator of this
repository.  The deferred-activation engine `generate_primes_rns` of
src/Eric_RNS_SkipEven.py is embedded as an explicit state machine, and the
naive immediate-activation sieve of src/Eric_RNS.py is embedded alongside it.
The while-loops of the source are rendered as fuel-indexed structural
recursions, so every definition evaluates by kernel reduction.
-/

namespace RNS

/-- State of the deferred-activation sieve loop of `generate_primes_rns`
(src/Eric_RNS_SkipEven.py, lines 29-52).  Field names follow the local
variables of the Python source; numpy int64 arrays are modelled as lists of
naturals (all quantities involved are non-negative). -/
structure EngineState where
  primes : List Nat
  active_moduli : List Nat
  digits : List Nat
  pending_primes : List Nat
  pending_squares : List Nat
  next_square_idx : Nat
  square_multiplies : Nat
  digit_increments : Nat
  digit_wraps : Nat
  zero_checks : Nat
  n : Nat

/-- The activation while-loop of src/Eric_RNS_SkipEven.py lines 71-76,
written with an explicit fuel argument so that the recursion is structural.
Each pass appends `pending_primes[idx]` to the active moduli, appends a fresh
digit 0, and advances the index, as long as `pending_squares[idx] == n`. -/
def activateAux (pending_primes pending_squares : List Nat) (n : Nat) :
    Nat → Nat → List Nat → List Nat → Nat × List Nat × List Nat
  | 0, idx, moduli, digits => (idx, moduli, digits)
  | fuel + 1, idx, moduli, digits =>
    if idx < pending_squares.length ∧ pending_squares.getD idx 0 = n then
      activateAux pending_primes pending_squares n fuel (idx + 1)
        (moduli ++ [pending_primes.getD idx 0]) (digits ++ [0])
    else (idx, moduli, digits)

/-- The activation while-loop with its fuel instantiated to
`pending_squares.length - idx`, an upper bound on the number of passes the
Python loop can make (the index strictly increases and is bounded by the
length of `pending_squares`). -/
def activate (pending_primes pending_squares : List Nat) (n idx : Nat)
    (moduli digits : List Nat) : Nat × List Nat × List Nat :=
  activateAux pending_primes pending_squares n (pending_squares.length - idx)
    idx moduli digits

/-- The boolean mask `wrap_mask = digits >= active_moduli` of
src/Eric_RNS_SkipEven.py line 63. -/
def wrapMask (digits moduli : List Nat) : List Bool :=
  List.zipWith (fun x m => decide (x ≥ m)) digits moduli

/-- The masked subtraction `digits[wrap_mask] -= active_moduli[wrap_mask]` of
src/Eric_RNS_SkipEven.py line 65, written pointwise: each digit at or above
its modulus is reduced by the modulus once. -/
def wrapDigits (digits moduli : List Nat) : List Nat :=
  List.zipWith (fun x m => if x ≥ m then x - m else x) digits moduli

/-- The residue bulk advance of src/Eric_RNS_SkipEven.py lines 58-65:
`digits += step` followed by the single conditional wrap, guarded by
`np.any(wrap_mask)`.  The outer `if digits.size:` guard of the source is
omitted because on an empty digits vector every operation here is the
identity, which is exactly what skipping the block does. -/
def advanceDigits (digits moduli : List Nat) (step : Nat) : List Nat :=
  let d := digits.map (fun x => x + step)
  if (wrapMask d moduli).any id then wrapDigits d moduli else d

/-- One iteration of the main while-loop of `generate_primes_rns`
(src/Eric_RNS_SkipEven.py, lines 54-91): advance the candidate by 2, bulk
advance and wrap the active digits, activate pending primes whose square
equals the candidate, test the digits for a zero, and on success append the
new prime and schedule it at its square.  The wrap counter adds the mask
population count unconditionally, which agrees with the source because the
source only skips the addition when the count is zero. -/
def stepCand (s : EngineState) : EngineState :=
  let step := 2
  let n := s.n + step
  let digits2 := advanceDigits s.digits s.active_moduli step
  let increments1 :=
    if s.digits.length ≠ 0 then s.digit_increments + s.digits.length
    else s.digit_increments
  let wraps1 :=
    s.digit_wraps + (wrapMask (s.digits.map (fun x => x + step)) s.active_moduli).count true
  let act := activate s.pending_primes s.pending_squares n s.next_square_idx
    s.active_moduli digits2
  let zc := s.zero_checks + 1
  if act.2.2.length ≠ 0 ∧ act.2.2.any (fun x => x == 0) then
    { primes := s.primes, active_moduli := act.2.1, digits := act.2.2,
      pending_primes := s.pending_primes, pending_squares := s.pending_squares,
      next_square_idx := act.1, square_multiplies := s.square_multiplies,
      digit_increments := increments1, digit_wraps := wraps1,
      zero_checks := zc, n := n }
  else
    { primes := s.primes ++ [n], active_moduli := act.2.1, digits := act.2.2,
      pending_primes := s.pending_primes ++ [n],
      pending_squares := s.pending_squares ++ [n * n],
      next_square_idx := act.1, square_multiplies := s.square_multiplies + 1,
      digit_increments := increments1, digit_wraps := wraps1,
      zero_checks := zc, n := n }

/-- The main while-loop `while len(primes) < count` of `generate_primes_rns`,
with an explicit fuel making the recursion structural.  The loop body is
`stepCand`; once `count` primes have been found the state is returned
unchanged regardless of remaining fuel. -/
def sieveLoop (count : Nat) : Nat → EngineState → EngineState
  | 0, s => s
  | fuel + 1, s =>
    if s.primes.length < count then sieveLoop count fuel (stepCand s) else s

/-- The state of `generate_primes_rns` just before the main loop
(src/Eric_RNS_SkipEven.py, lines 29-52): primes seeded with 2, no active
moduli, empty pending queue, all counters zero, candidate cursor at 1. -/
def initState : EngineState :=
  { primes := [2], active_moduli := [], digits := [], pending_primes := [],
    pending_squares := [], next_square_idx := 0, square_multiplies := 0,
    digit_increments := 0, digit_wraps := 0, zero_checks := 0, n := 1 }

/-- The stats dictionary assembled at src/Eric_RNS_SkipEven.py lines 93-103,
modelled as an association list in the insertion order of the Python dict
literal: empty unless `collect_stats` is true. -/
def statsDict (collect_stats : Bool) (s : EngineState) : List (String × Nat) :=
  if collect_stats then
    [("total_primes_found", s.primes.length),
     ("square_multiplies", s.square_multiplies),
     ("digit_increments", s.digit_increments),
     ("digit_wraps", s.digit_wraps),
     ("zero_checks", s.zero_checks),
     ("active_moduli_final", s.active_moduli.length),
     ("max_prime", (s.primes.getLast?).getD 0)]
  else []

/-- The engine `generate_primes_rns(count, collect_stats)` of
src/Eric_RNS_SkipEven.py.  A count below 1 returns `([], {})` (line 26-27);
a count of exactly 1 returns `[2]` with the four zero-valued counters
(lines 31-32); otherwise the sieve loop runs until `count` primes are found.
The fuel `2 ^ count` is an upper bound on the number of loop iterations
actually needed (proved below from the Bertrand postulate), so the fuelled
loop agrees with the unbounded Python loop. -/
def generate_primes_rns (count : Int) (collect_stats : Bool) :
    List Nat × List (String × Nat) :=
  if count < 1 then ([], [])
  else if count = 1 then
    ([2], [("square_multiplies", 0), ("digit_increments", 0),
           ("digit_wraps", 0), ("zero_checks", 0)])
  else
    let c := count.toNat
    let s := sieveLoop c (2 ^ c) initState
    (s.primes, statsDict collect_stats s)

/-- The argument validation of `main` (src/Eric_RNS_SkipEven.py, lines
116-118): a count outside [1, 1_000_000_000] terminates the program via
`sys.exit` with the given message, before the engine is invoked. -/
def mainCheck (cnt : Int) : Except String Unit :=
  if cnt < 1 ∨ 1000000000 < cnt then
    Except.error "Error: cnt argument should be between 1 and 1,000,000"
  else Except.ok ()

/-- State of the naive immediate-activation sieve of src/Eric_RNS.py:
module-level variables `primes`, `digits`, `num_primes`, `last` and the two
counters. -/
structure NaiveState where
  primes : List Nat
  digits : List Nat
  num_primes : Nat
  last : Nat
  num_of_multiplies : Nat
  num_of_increments : Nat

/-- The module-level initial state of src/Eric_RNS.py (lines 2-22). -/
def naiveInit : NaiveState :=
  { primes := [2], digits := [0], num_primes := 1, last := 2,
    num_of_multiplies := 0, num_of_increments := 0 }

/-- The helper `wrap_digits(primes, digits)` of src/Eric_RNS.py lines 13-16:
set `digits[i]` to 0 whenever `digits[i] == primes[i]`. -/
def wrap_digits (primes digits : List Nat) : List Nat :=
  List.zipWith (fun p d => if d = p then 0 else d) primes digits

/-- The helper `contains_zero(array)` of src/Eric_RNS.py lines 7-11. -/
def contains_zero (array : List Nat) : Bool :=
  array.any (fun x => x == 0)

/-- The inner `for trial in range(...)` loop of src/Eric_RNS.py lines 31-45,
processing one trial per list element: increment every digit by 1, wrap,
and if no digit is zero insert the trial as a new prime (with digit 0) and
stop early once `num_primes` exceeds `number`. -/
def naiveInner (number : Nat) : List Nat → NaiveState → NaiveState
  | [], s => s
  | trial :: rest, s =>
    let d1 := s.digits.map (fun x => x + 1)
    let inc := s.num_of_increments + d1.length
    let d2 := wrap_digits s.primes d1
    if contains_zero d2 then
      naiveInner number rest
        { s with digits := d2, num_of_increments := inc }
    else
      let s1 : NaiveState :=
        { s with
          primes := s.primes ++ [trial],
          digits := d2 ++ [0],
          num_primes := s.num_primes + 1,
          num_of_increments := inc }
      if number < s1.num_primes then s1 else naiveInner number rest s1

/-- The list of trials visited by `range(last + 1 + (last % 2), max_prime, 2)`
of src/Eric_RNS.py line 31: the odd-step arithmetic progression from
`last + 1 + last % 2` below `max_prime`. -/
def naiveTrials (last max_prime : Nat) : List Nat :=
  List.range' (last + 1 + last % 2) ((max_prime - (last + 1 + last % 2) + 1) / 2) 2

/-- The outer `while(num_primes < number)` loop of src/Eric_RNS.py lines
26-46, fuelled to keep the recursion structural: square the last prime found,
walk the trial range, then set `last = max_prime - 1`. -/
def naiveOuter (number : Nat) : Nat → NaiveState → NaiveState
  | 0, s => s
  | fuel + 1, s =>
    if s.num_primes < number then
      let mp := ((s.primes.getLast?).getD 0) ^ 2
      let s1 : NaiveState := { s with num_of_multiplies := s.num_of_multiplies + 1 }
      let s2 := naiveInner number (naiveTrials s.last mp) s1
      naiveOuter number fuel { s2 with last := mp - 1 }
    else s

/-- The prime list produced by running the naive sieve of src/Eric_RNS.py
for a given target `number` of primes, with outer-loop fuel. -/
def naivePrimes (number fuel : Nat) : List Nat :=
  (naiveOuter number fuel naiveInit).primes

/-- All odd primes up to and including `n`, in increasing order.  This is the
reference description of the primes the engine discovers after the seed 2. -/
def oddPrimesUpTo (n : Nat) : List Nat :=
  (List.range (n + 1)).filter (fun m => decide (m % 2 = 1 ∧ Nat.Prime m))

/-- The odd primes up to `n` whose square is at most `n`: exactly the moduli
the deferred-activation engine keeps active while the cursor sits at `n`. -/
def activeOf (n : Nat) : List Nat :=
  (oddPrimesUpTo n).filter (fun p => decide (p * p ≤ n))

/-- The odd primes up to `n` whose square exceeds `n`: the part of the
pending queue not yet activated while the cursor sits at `n`. -/
def inactiveOf (n : Nat) : List Nat :=
  (oddPrimesUpTo n).filter (fun p => decide (¬ p * p ≤ n))

/-- Characterisation of the full engine state after processing candidate
`s.n`: the cursor is odd, the primes found are 2 followed by the odd primes
up to the cursor, the pending queue records every odd prime found with its
square, the active moduli are the odd primes whose square the cursor has
reached, each digit is the residue of the cursor modulo its modulus, and the
queue index counts the activated entries. -/
def Inv (s : EngineState) : Prop :=
  s.n % 2 = 1 ∧ 1 ≤ s.n ∧
  s.primes = 2 :: oddPrimesUpTo s.n ∧
  s.pending_primes = oddPrimesUpTo s.n ∧
  s.pending_squares = (oddPrimesUpTo s.n).map (fun p => p * p) ∧
  s.active_moduli = activeOf s.n ∧
  s.digits = (activeOf s.n).map (fun p => s.n % p) ∧
  s.next_square_idx = (activeOf s.n).length

/-- The engine state after `t` iterations of the sieve loop body. -/
def engineAt : Nat → EngineState
  | 0 => initState
  | t + 1 => stepCand (engineAt t)

/-- Two strictly increasing lists of naturals with the same members are
equal. -/
theorem sorted_ext {l₁ l₂ : List Nat} (h₁ : l₁.Pairwise (· < ·))
    (h₂ : l₂.Pairwise (· < ·)) (hm : ∀ x, x ∈ l₁ ↔ x ∈ l₂) : l₁ = l₂ := by
  induction l₁ generalizing l₂ with
  | nil =>
    cases l₂ with
    | nil => rfl
    | cons b t₂ => exact absurd ((hm b).mpr (List.mem_cons_self b t₂)) (List.not_mem_nil b)
  | cons a t ih =>
    cases l₂ with
    | nil => exact absurd ((hm a).mp (List.mem_cons_self a t)) (List.not_mem_nil a)
    | cons b t₂ =>
      rw [List.pairwise_cons] at h₁ h₂
      have hab : a = b := by
        have h1 := (hm a).mp (List.mem_cons_self a t)
        have h2 := (hm b).mpr (List.mem_cons_self b t₂)
        rw [List.mem_cons] at h1 h2
        rcases h1 with h1 | h1
        · exact h1
        · rcases h2 with h2 | h2
          · exact h2.symm
          · have hba := h₂.1 a h1
            have hb := h₁.1 b h2
            omega
      subst hab
      have htm : ∀ x, x ∈ t ↔ x ∈ t₂ := by
        intro x
        constructor
        · intro hx
          have hax := h₁.1 x hx
          have hmx := (hm x).mp (List.mem_cons_of_mem a hx)
          rw [List.mem_cons] at hmx
          rcases hmx with h | h
          · omega
          · exact h
        · intro hx
          have hax := h₂.1 x hx
          have hmx := (hm x).mpr (List.mem_cons_of_mem a hx)
          rw [List.mem_cons] at hmx
          rcases hmx with h | h
          · omega
          · exact h
      rw [ih h₁.2 h₂.2 htm]

/-- The single conditional subtraction computes the residue modulo `m` of a
digit that was below `m` before being advanced by 2. -/
theorem wrap_mod {a m : Nat} (hm : 2 ≤ m) (ha : a < m) :
    (if a + 2 ≥ m then a + 2 - m else a + 2) = (a + 2) % m := by
  by_cases h : a + 2 ≥ m
  · rw [if_pos h, Nat.mod_eq_sub_mod h, Nat.mod_eq_of_lt (by omega)]
  · rw [if_neg h, Nat.mod_eq_of_lt (by omega)]

/-- Advancing a vector of residues of `n` by 2 and wrapping once yields the
residues of `n + 2`. -/
theorem zip_wrap_eq (n : Nat) : ∀ (l : List Nat), (∀ p ∈ l, 2 ≤ p) →
    wrapDigits (l.map (fun p => n % p + 2)) l = l.map (fun p => (n + 2) % p) := by
  intro l
  induction l with
  | nil => intro _; rfl
  | cons p t ih =>
    intro h
    have hp : 2 ≤ p := h p (List.mem_cons_self p t)
    have ht := ih (fun q hq => h q (List.mem_cons_of_mem p hq))
    simp only [List.map_cons, wrapDigits, List.zipWith_cons_cons]
    simp only [wrapDigits] at ht
    rw [ht]
    have h1 : n % p < p := Nat.mod_lt n (by omega)
    rw [wrap_mod hp h1, Nat.mod_add_mod]

/-- When the wrap mask is all false the masked subtraction leaves the digit
vector unchanged. -/
theorem zip_nowrap : ∀ (d l : List Nat), d.length = l.length →
    (wrapMask d l).any id = false → wrapDigits d l = d := by
  intro d
  induction d with
  | nil => intro l _ _; rfl
  | cons x t ih =>
    intro l hlen hmask
    cases l with
    | nil => simp at hlen
    | cons m lt =>
      simp only [wrapMask, List.zipWith_cons_cons, List.any_cons, id,
        Bool.or_eq_false_iff, decide_eq_false_iff_not] at hmask
      simp only [wrapDigits, List.zipWith_cons_cons]
      rw [if_neg hmask.1]
      have := ih lt (by simpa using hlen) (by simpa [wrapMask] using hmask.2)
      simp only [wrapDigits] at this
      rw [this]

/-- The wrap mask of the advanced digits, re-expressed over the original
digits. -/
theorem wrapMask_map (step : Nat) : ∀ (d l : List Nat),
    wrapMask (d.map (fun x => x + step)) l =
      List.zipWith (fun x m => decide (x + step ≥ m)) d l := by
  intro d
  induction d with
  | nil => intro l; rfl
  | cons x t ih =>
    intro l
    cases l with
    | nil => rfl
    | cons m lt =>
      simp only [wrapMask, List.map_cons, List.zipWith_cons_cons] at *
      rw [ih lt]

/-- The list of odd primes up to `n` is strictly increasing. -/
theorem oddPrimes_pairwise (n : Nat) : (oddPrimesUpTo n).Pairwise (· < ·) :=
  (List.pairwise_lt_range (n + 1)).filter _

/-- Membership in the odd primes up to `n`. -/
theorem mem_oddPrimesUpTo {p n : Nat} :
    p ∈ oddPrimesUpTo n ↔ p % 2 = 1 ∧ Nat.Prime p ∧ p ≤ n := by
  simp only [oddPrimesUpTo, List.mem_filter, List.mem_range, decide_eq_true_eq]
  constructor
  · rintro ⟨h1, h2, h3⟩
    exact ⟨h2, h3, by omega⟩
  · rintro ⟨h1, h2, h3⟩
    exact ⟨by omega, h1, h2⟩

/-- The active moduli while the cursor sits at `n` are strictly increasing. -/
theorem activeOf_pairwise (n : Nat) : (activeOf n).Pairwise (· < ·) :=
  (oddPrimes_pairwise n).filter _

/-- The not-yet-activated primes while the cursor sits at `n` are strictly
increasing. -/
theorem inactiveOf_pairwise (n : Nat) : (inactiveOf n).Pairwise (· < ·) :=
  (oddPrimes_pairwise n).filter _

/-- Membership among the active moduli at cursor `n`: exactly the odd primes
whose square is at most `n`. -/
theorem mem_activeOf {p n : Nat} :
    p ∈ activeOf n ↔ p % 2 = 1 ∧ Nat.Prime p ∧ p * p ≤ n := by
  simp only [activeOf, List.mem_filter, mem_oddPrimesUpTo, decide_eq_true_eq]
  constructor
  · rintro ⟨⟨h1, h2, h3⟩, h4⟩
    exact ⟨h1, h2, h4⟩
  · rintro ⟨h1, h2, h3⟩
    refine ⟨⟨h1, h2, ?_⟩, h3⟩
    have hp : 0 < p := h2.pos
    calc p ≤ p * p := Nat.le_mul_of_pos_left p hp
    _ ≤ n := h3

/-- Membership among the pending, not yet activated primes at cursor `n`. -/
theorem mem_inactiveOf {p n : Nat} :
    p ∈ inactiveOf n ↔ p % 2 = 1 ∧ Nat.Prime p ∧ p ≤ n ∧ n < p * p := by
  simp only [inactiveOf, List.mem_filter, mem_oddPrimesUpTo, decide_eq_true_eq]
  constructor
  · rintro ⟨⟨h1, h2, h3⟩, h4⟩
    exact ⟨h1, h2, h3, by omega⟩
  · rintro ⟨h1, h2, h3, h4⟩
    exact ⟨⟨h1, h2, h3⟩, by omega⟩

/-- Every active modulus is an odd prime, hence at least 3. -/
theorem mem_activeOf_three_le {p n : Nat} (h : p ∈ activeOf n) : 3 ≤ p := by
  obtain ⟨h1, h2, _⟩ := mem_activeOf.mp h
  have := h2.two_le
  omega

/-- The odd primes up to `n` split exactly into the activated ones (square
at most `n`) followed by the pending ones (square beyond `n`). -/
theorem odd_split (n : Nat) : oddPrimesUpTo n = activeOf n ++ inactiveOf n := by
  apply sorted_ext (oddPrimes_pairwise n)
  · rw [List.pairwise_append]
    refine ⟨activeOf_pairwise n, inactiveOf_pairwise n, ?_⟩
    intro a ha b hb
    obtain ⟨_, hpa, ha2⟩ := mem_activeOf.mp ha
    obtain ⟨_, hpb, _, hb2⟩ := mem_inactiveOf.mp hb
    by_contra hc
    push_neg at hc
    have : b * b ≤ a * a := Nat.mul_le_mul hc hc
    omega
  · intro x
    rw [List.mem_append, mem_oddPrimesUpTo, mem_activeOf, mem_inactiveOf]
    constructor
    · rintro ⟨h1, h2, h3⟩
      by_cases h : x * x ≤ n
      · exact Or.inl ⟨h1, h2, h⟩
      · exact Or.inr ⟨h1, h2, h3, by omega⟩
    · rintro (⟨h1, h2, h3⟩ | ⟨h1, h2, h3, _⟩)
      · refine ⟨h1, h2, ?_⟩
        have hp : 0 < x := h2.pos
        calc x ≤ x * x := Nat.le_mul_of_pos_left x hp
        _ ≤ n := h3
      · exact ⟨h1, h2, h3⟩

/-- Scanning two candidates further extends the odd primes list by the new
candidate exactly when it is prime (the intermediate even number never
contributes). -/
theorem oddPrimesUpTo_step {n : Nat} (hn : n % 2 = 1) :
    oddPrimesUpTo (n + 2) =
      oddPrimesUpTo n ++ (if Nat.Prime (n + 2) then [n + 2] else []) := by
  unfold oddPrimesUpTo
  rw [show n + 2 + 1 = (n + 1 + 1) + 1 from rfl, List.range_succ,
    show n + 1 + 1 = (n + 1) + 1 from rfl, List.range_succ,
    List.filter_append, List.filter_append]
  have e1 : List.filter (fun m => decide (m % 2 = 1 ∧ Nat.Prime m)) [n + 1] = [] := by
    simp only [List.filter_cons, List.filter_nil, decide_eq_true_eq]
    rw [if_neg]
    rintro ⟨h, _⟩
    omega
  have e2 : List.filter (fun m => decide (m % 2 = 1 ∧ Nat.Prime m)) [n + 1 + 1] =
      if Nat.Prime (n + 2) then [n + 2] else [] := by
    simp only [List.filter_cons, List.filter_nil, decide_eq_true_eq]
    by_cases hp : Nat.Prime (n + 2)
    · rw [if_pos ⟨by omega, by simpa using hp⟩, if_pos hp]
    · rw [if_neg, if_neg hp]
      rintro ⟨_, h⟩
      exact hp (by simpa using h)
  rw [e1, e2, List.append_nil]

/-- The activation loop stops immediately when the index is out of range or
the square at the index differs from the candidate. -/
theorem activateAux_stop {pp ps : List Nat} {n idx : Nat}
    (h : ¬(idx < ps.length ∧ ps.getD idx 0 = n)) :
    ∀ fuel moduli digits,
      activateAux pp ps n fuel idx moduli digits = (idx, moduli, digits) := by
  intro fuel
  cases fuel with
  | zero => intro m d; rfl
  | succ k =>
    intro m d
    simp only [activateAux]
    rw [if_neg h]

/-- The activation while-loop makes no pass when its condition fails. -/
theorem activate_stop {pp ps : List Nat} {n idx : Nat}
    (h : ¬(idx < ps.length ∧ ps.getD idx 0 = n)) (moduli digits : List Nat) :
    activate pp ps n idx moduli digits = (idx, moduli, digits) :=
  activateAux_stop h _ moduli digits

/-- The activation while-loop makes exactly one pass when its condition
holds at the current index but fails at the next. -/
theorem activate_one {pp ps : List Nat} {n idx : Nat} (h1 : idx < ps.length)
    (h2 : ps.getD idx 0 = n)
    (h3 : ¬(idx + 1 < ps.length ∧ ps.getD (idx + 1) 0 = n))
    (moduli digits : List Nat) :
    activate pp ps n idx moduli digits =
      (idx + 1, moduli ++ [pp.getD idx 0], digits ++ [0]) := by
  unfold activate
  obtain ⟨k, hk⟩ : ∃ k, ps.length - idx = k + 1 := ⟨ps.length - idx - 1, by omega⟩
  rw [hk]
  simp only [activateAux]
  rw [if_pos ⟨h1, h2⟩]
  exact activateAux_stop h3 k _ _

/-- Reading an appended list at the length of its first part yields the head
of the second part. -/
theorem getD_append_head {A R : List Nat} {q : Nat} (d : Nat) :
    (A ++ q :: R).getD A.length d = q := by
  rw [List.getD_append_right _ _ _ _ (Nat.le_refl _)]
  simp

/-- The square of an odd number is odd. -/
theorem odd_sq {p : Nat} (h : p % 2 = 1) : (p * p) % 2 = 1 := by
  rw [Nat.mul_mod, h]

/-- Squaring is strictly monotone on naturals. -/
theorem sq_lt_sq {a b : Nat} (h : a < b) : a * a < b * b := by
  nlinarith

/-- Squaring is injective on naturals. -/
theorem sq_inj {a b : Nat} (h : a * a = b * b) : a = b := by
  rcases Nat.lt_trichotomy a b with hl | he | hg
  · have := sq_lt_sq hl
    omega
  · exact he
  · have := sq_lt_sq hg
    omega

/-- An odd prime whose square is the candidate two past `n` belongs to the
pending part of the state at `n`. -/
theorem sq_mem_inactive {n p : Nat} (hodd : n % 2 = 1) (h1 : p % 2 = 1)
    (h2 : Nat.Prime p) (hsq : p * p = n + 2) : p ∈ inactiveOf n := by
  rw [mem_inactiveOf]
  have h2p := h2.two_le
  have hple : p ≤ p * p := Nat.le_mul_of_pos_left p h2.pos
  have hne1 : p ≠ n + 2 := by
    rintro rfl
    nlinarith
  have hne2 : p ≠ n + 1 := by
    rintro rfl
    omega
  exact ⟨h1, h2, by omega, by omega⟩

/-- When no odd prime has its square at the candidate two past `n`, the
active moduli do not change between cursor `n` and cursor `n + 2`. -/
theorem activeOf_stable {n : Nat} (hodd : n % 2 = 1)
    (hns : ∀ p, p % 2 = 1 → Nat.Prime p → p * p ≠ n + 2) :
    activeOf (n + 2) = activeOf n := by
  apply sorted_ext (activeOf_pairwise (n + 2)) (activeOf_pairwise n)
  intro x
  rw [mem_activeOf, mem_activeOf]
  constructor
  · rintro ⟨h1, h2, h3⟩
    refine ⟨h1, h2, ?_⟩
    have hxodd : (x * x) % 2 = 1 := odd_sq h1
    have hne2 : x * x ≠ n + 2 := hns x h1 h2
    omega
  · rintro ⟨h1, h2, h3⟩
    exact ⟨h1, h2, by omega⟩

/-- When the pending prime `q` has its square exactly at the candidate two
past `n`, the active moduli at `n + 2` are those at `n` with `q` appended. -/
theorem activeOf_append {n q : Nat} (hodd : n % 2 = 1)
    (hq : q ∈ inactiveOf n) (hsq : q * q = n + 2) :
    activeOf (n + 2) = activeOf n ++ [q] := by
  obtain ⟨hq1, hq2, hq3, hq4⟩ := mem_inactiveOf.mp hq
  apply sorted_ext (activeOf_pairwise (n + 2))
  · rw [List.pairwise_append]
    refine ⟨activeOf_pairwise n, List.pairwise_singleton _ _, ?_⟩
    intro a ha b hb
    rw [List.mem_singleton] at hb
    subst hb
    obtain ⟨_, hpa, ha2⟩ := mem_activeOf.mp ha
    by_contra hc
    push_neg at hc
    have := Nat.mul_le_mul hc hc
    omega
  · intro x
    rw [List.mem_append, mem_activeOf, mem_activeOf, List.mem_singleton]
    constructor
    · rintro ⟨h1, h2, h3⟩
      by_cases hxn : x * x ≤ n
      · exact Or.inl ⟨h1, h2, hxn⟩
      · right
        have hxodd := odd_sq h1
        have hx2 : x * x = n + 2 := by omega
        exact sq_inj (hx2.trans hsq.symm)
    · rintro (⟨h1, h2, h3⟩ | rfl)
      · exact ⟨h1, h2, by omega⟩
      · exact ⟨hq1, hq2, by omega⟩

/-- When the head of the pending queue does not activate at the candidate
two past `n`, no odd prime square sits there at all. -/
theorem no_new_sq_of_head {n q : Nat} {rest : List Nat} (hodd : n % 2 = 1)
    (hsplit : inactiveOf n = q :: rest) (hne : q * q ≠ n + 2) :
    ∀ p, p % 2 = 1 → Nat.Prime p → p * p ≠ n + 2 := by
  intro p h1 h2 hsq
  have hp := sq_mem_inactive hodd h1 h2 hsq
  rw [hsplit] at hp
  rcases List.mem_cons.mp hp with h | h
  · subst h
    exact hne hsq
  · have hpw := inactiveOf_pairwise n
    rw [hsplit, List.pairwise_cons] at hpw
    have hql : q < p := hpw.1 p h
    have hqmem : q ∈ inactiveOf n := by
      rw [hsplit]
      exact List.mem_cons_self q rest
    obtain ⟨hq1, _, _, hq4⟩ := mem_inactiveOf.mp hqmem
    have h5 : q * q < p * p := sq_lt_sq hql
    have hqodd := odd_sq hq1
    omega

/-- A digit vector of residues of `n` has a zero entry exactly when one of
the moduli divides `n`. -/
theorem digits_any_zero {n : Nat} (l : List Nat) :
    ((l.map (fun p => n % p)).any (fun x => x == 0)) = true ↔
      ∃ p ∈ l, n % p = 0 := by
  simp [List.any_eq_true]

/-- The zero test performed by the engine on the residue vector of `n` over
the moduli `l` holds exactly when some modulus divides `n`. -/
theorem zero_test_iff {n : Nat} (l : List Nat) :
    ((l.map (fun p => n % p)).length ≠ 0 ∧
      (l.map (fun p => n % p)).any (fun x => x == 0) = true) ↔
      ∃ p ∈ l, n % p = 0 := by
  constructor
  · rintro ⟨_, h⟩
    exact (digits_any_zero l).mp h
  · rintro ⟨p, hp, hz⟩
    refine ⟨?_, (digits_any_zero l).mpr ⟨p, hp, hz⟩⟩
    have := List.ne_nil_of_mem hp
    simp [List.length_map]
    intro hc
    subst hc
    exact this rfl

/-- Soundness and completeness of the divisor-free primality decision: an
odd candidate at least 3 has a zero residue among the active moduli exactly
when it is composite. -/
theorem prime_test {m : Nat} (hodd : m % 2 = 1) (h3 : 3 ≤ m) :
    (∃ p ∈ activeOf m, m % p = 0) ↔ ¬ Nat.Prime m := by
  constructor
  · rintro ⟨p, hp, hz⟩ hprime
    obtain ⟨hpo, hpp, hps⟩ := mem_activeOf.mp hp
    have hdvd : p ∣ m := Nat.dvd_iff_mod_eq_zero.mpr hz
    rcases hprime.eq_one_or_self_of_dvd p hdvd with h | h
    · exact hpp.one_lt.ne' h
    · subst h
      nlinarith [hpp.two_le]
  · intro hnp
    have hm1 : m ≠ 1 := by omega
    have hpp : Nat.Prime m.minFac := Nat.minFac_prime hm1
    have hdvd : m.minFac ∣ m := Nat.minFac_dvd m
    have hsq : m.minFac * m.minFac ≤ m := by
      have := Nat.minFac_sq_le_self (by omega : 0 < m) hnp
      nlinarith [this]
    have hpo : m.minFac % 2 = 1 := by
      rcases hpp.eq_two_or_odd with h | h
      · exfalso
        rw [h] at hdvd
        have := Nat.dvd_iff_mod_eq_zero.mp hdvd
        omega
      · exact h
    exact ⟨m.minFac, mem_activeOf.mpr ⟨hpo, hpp, hsq⟩,
      Nat.dvd_iff_mod_eq_zero.mp hdvd⟩

/-- One sieve iteration preserves the canonical-state characterisation: from
a state that is canonical for cursor `n`, the engine reaches the canonical
state for cursor `n + 2`. -/
theorem Inv_stepCand {s : EngineState} (h : Inv s) : Inv (stepCand s) := by
  obtain ⟨hodd, hpos, hp, hpp, hps, ham, hd, hidx⟩ := h
  have h2le : ∀ p ∈ activeOf s.n, 2 ≤ p := by
    intro p hp0
    have := mem_activeOf_three_le hp0
    omega
  have hadv : advanceDigits s.digits s.active_moduli 2 =
      (activeOf s.n).map (fun p => (s.n + 2) % p) := by
    rw [hd, ham]
    simp only [advanceDigits]
    rw [List.map_map]
    have hfun : ((fun x => x + 2) ∘ fun p => s.n % p) = (fun p => s.n % p + 2) := rfl
    rw [hfun]
    split
    · exact zip_wrap_eq s.n _ h2le
    · rename_i hfalse
      have hf : (wrapMask ((activeOf s.n).map (fun p => s.n % p + 2))
          (activeOf s.n)).any id = false := by
        simpa using hfalse
      rw [← zip_nowrap _ _ (by simp) hf]
      exact zip_wrap_eq s.n _ h2le
  have hsplit : oddPrimesUpTo s.n = activeOf s.n ++ inactiveOf s.n := odd_split s.n
  have hact : activate s.pending_primes s.pending_squares (s.n + 2) s.next_square_idx
      s.active_moduli ((activeOf s.n).map (fun p => (s.n + 2) % p)) =
      ((activeOf (s.n + 2)).length, activeOf (s.n + 2),
        (activeOf (s.n + 2)).map (fun p => (s.n + 2) % p)) := by
    rcases hIc : inactiveOf s.n with _ | ⟨q, rest⟩
    · have hstable : activeOf (s.n + 2) = activeOf s.n := by
        apply activeOf_stable hodd
        intro p p1 p2 psq
        have hmem := sq_mem_inactive hodd p1 p2 psq
        rw [hIc] at hmem
        exact absurd hmem (List.not_mem_nil p)
      have hlenps : s.pending_squares.length = (activeOf s.n).length := by
        rw [hps, hsplit, hIc, List.append_nil, List.length_map]
      have hcond : ¬(s.next_square_idx < s.pending_squares.length ∧
          s.pending_squares.getD s.next_square_idx 0 = s.n + 2) := by
        rintro ⟨hlt, _⟩
        rw [hlenps, hidx] at hlt
        omega
      rw [activate_stop hcond, hstable, hidx, ham]
    · have hq : q ∈ inactiveOf s.n := by
        rw [hIc]
        exact List.mem_cons_self q rest
      have hpse : s.pending_squares =
          (activeOf s.n).map (fun p => p * p) ++
            (q * q :: rest.map (fun p => p * p)) := by
        rw [hps, hsplit, hIc, List.map_append, List.map_cons]
      have hppe : s.pending_primes = activeOf s.n ++ (q :: rest) := by
        rw [hpp, hsplit, hIc]
      have hgetq : s.pending_squares.getD s.next_square_idx 0 = q * q := by
        rw [hpse, hidx,
          show (activeOf s.n).length =
            ((activeOf s.n).map (fun p => p * p)).length from
            (List.length_map _ _).symm,
          getD_append_head]
      have hlt : s.next_square_idx < s.pending_squares.length := by
        rw [hpse, hidx, List.length_append, List.length_map, List.length_cons]
        omega
      by_cases hq2 : q * q = s.n + 2
      · have hnext : ¬(s.next_square_idx + 1 < s.pending_squares.length ∧
            s.pending_squares.getD (s.next_square_idx + 1) 0 = s.n + 2) := by
          rcases rest with _ | ⟨r, rest2⟩
          · rintro ⟨hl, _⟩
            rw [hpse, hidx, List.length_append, List.length_map,
              List.length_cons, List.length_map, List.length_nil] at hl
            omega
          · rintro ⟨_, hgd⟩
            have hr : s.pending_squares.getD (s.next_square_idx + 1) 0 = r * r := by
              rw [hpse, List.map_cons, List.append_cons, hidx,
                show (activeOf s.n).length + 1 =
                  ((activeOf s.n).map (fun p => p * p) ++ [q * q]).length from by
                    simp,
                getD_append_head]
            rw [hr] at hgd
            have hpw := inactiveOf_pairwise s.n
            rw [hIc, List.pairwise_cons] at hpw
            have hqr : q < r := hpw.1 r (List.mem_cons_self r rest2)
            have := sq_lt_sq hqr
            omega
        have hgetp : s.pending_primes.getD s.next_square_idx 0 = q := by
          rw [hppe, hidx, getD_append_head]
        rw [activate_one hlt (by rw [hgetq, hq2]) hnext, hgetp]
        have hA2 : activeOf (s.n + 2) = activeOf s.n ++ [q] :=
          activeOf_append hodd hq hq2
        have hmod : (s.n + 2) % q = 0 := by
          rw [← hq2]
          exact Nat.mul_mod_left q q
        rw [hA2, ham, hidx]
        simp [List.map_append, hmod]
      · have hstable : activeOf (s.n + 2) = activeOf s.n :=
          activeOf_stable hodd (no_new_sq_of_head hodd hIc hq2)
        have hcond : ¬(s.next_square_idx < s.pending_squares.length ∧
            s.pending_squares.getD s.next_square_idx 0 = s.n + 2) := by
          rintro ⟨_, hgd⟩
          rw [hgetq] at hgd
          exact hq2 hgd
        rw [activate_stop hcond, hstable, hidx, ham]
  by_cases hprime : Nat.Prime (s.n + 2)
  · have hcnd : ¬(((activeOf (s.n + 2)).map (fun p => (s.n + 2) % p)).length ≠ 0 ∧
        ((activeOf (s.n + 2)).map (fun p => (s.n + 2) % p)).any
          (fun x => x == 0) = true) := by
      intro hc
      exact (prime_test (by omega) (by omega)).mp ((zero_test_iff _).mp hc) hprime
    have hkey : stepCand s =
        { primes := s.primes ++ [s.n + 2],
          active_moduli := activeOf (s.n + 2),
          digits := (activeOf (s.n + 2)).map (fun p => (s.n + 2) % p),
          pending_primes := s.pending_primes ++ [s.n + 2],
          pending_squares := s.pending_squares ++ [(s.n + 2) * (s.n + 2)],
          next_square_idx := (activeOf (s.n + 2)).length,
          square_multiplies := s.square_multiplies + 1,
          digit_increments :=
            if s.digits.length ≠ 0 then s.digit_increments + s.digits.length
            else s.digit_increments,
          digit_wraps := s.digit_wraps +
            (wrapMask (s.digits.map (fun x => x + 2)) s.active_moduli).count true,
          zero_checks := s.zero_checks + 1,
          n := s.n + 2 } := by
      simp only [stepCand]
      rw [hadv, hact]
      dsimp only
      rw [if_neg hcnd]
    rw [hkey]
    unfold Inv
    refine ⟨?_, ?_, ?_, ?_, ?_, rfl, rfl, rfl⟩
    · show (s.n + 2) % 2 = 1
      omega
    · show 1 ≤ s.n + 2
      omega
    · show s.primes ++ [s.n + 2] = 2 :: oddPrimesUpTo (s.n + 2)
      rw [hp, oddPrimesUpTo_step hodd, if_pos hprime, List.cons_append]
    · show s.pending_primes ++ [s.n + 2] = oddPrimesUpTo (s.n + 2)
      rw [hpp, oddPrimesUpTo_step hodd, if_pos hprime]
    · show s.pending_squares ++ [(s.n + 2) * (s.n + 2)] =
        (oddPrimesUpTo (s.n + 2)).map (fun p => p * p)
      rw [hps, oddPrimesUpTo_step hodd, if_pos hprime, List.map_append,
        List.map_cons, List.map_nil]
  · have hcnd : (((activeOf (s.n + 2)).map (fun p => (s.n + 2) % p)).length ≠ 0 ∧
        ((activeOf (s.n + 2)).map (fun p => (s.n + 2) % p)).any
          (fun x => x == 0) = true) :=
      (zero_test_iff _).mpr ((prime_test (by omega) (by omega)).mpr hprime)
    have hkey : stepCand s =
        { primes := s.primes,
          active_moduli := activeOf (s.n + 2),
          digits := (activeOf (s.n + 2)).map (fun p => (s.n + 2) % p),
          pending_primes := s.pending_primes,
          pending_squares := s.pending_squares,
          next_square_idx := (activeOf (s.n + 2)).length,
          square_multiplies := s.square_multiplies,
          digit_increments :=
            if s.digits.length ≠ 0 then s.digit_increments + s.digits.length
            else s.digit_increments,
          digit_wraps := s.digit_wraps +
            (wrapMask (s.digits.map (fun x => x + 2)) s.active_moduli).count true,
          zero_checks := s.zero_checks + 1,
          n := s.n + 2 } := by
      simp only [stepCand]
      rw [hadv, hact]
      dsimp only
      rw [if_pos hcnd]
    rw [hkey]
    unfold Inv
    refine ⟨?_, ?_, ?_, ?_, ?_, rfl, rfl, rfl⟩
    · show (s.n + 2) % 2 = 1
      omega
    · show 1 ≤ s.n + 2
      omega
    · show s.primes = 2 :: oddPrimesUpTo (s.n + 2)
      rw [hp, oddPrimesUpTo_step hodd, if_neg hprime, List.append_nil]
    · show s.pending_primes = oddPrimesUpTo (s.n + 2)
      rw [hpp, oddPrimesUpTo_step hodd, if_neg hprime, List.append_nil]
    · show s.pending_squares = (oddPrimesUpTo (s.n + 2)).map (fun p => p * p)
      rw [hps, oddPrimesUpTo_step hodd, if_neg hprime, List.append_nil]

/-- The cursor advances by exactly 2 in every iteration. -/
theorem stepCand_n (s : EngineState) : (stepCand s).n = s.n + 2 := by
  simp only [stepCand]
  split <;> rfl

/-- Each iteration appends at most one prime. -/
theorem stepCand_primes_len (s : EngineState) :
    (stepCand s).primes.length = s.primes.length ∨
      (stepCand s).primes.length = s.primes.length + 1 := by
  simp only [stepCand]
  split
  · left
    rfl
  · right
    simp

/-- There is no odd prime at or below 1. -/
theorem oddPrimesUpTo_one : oddPrimesUpTo 1 = [] := by
  rw [List.eq_nil_iff_forall_not_mem]
  intro x hx
  obtain ⟨h1, h2, h3⟩ := mem_oddPrimesUpTo.mp hx
  have := h2.two_le
  omega

/-- No modulus is active at cursor 1. -/
theorem activeOf_one : activeOf 1 = [] := by
  unfold activeOf
  rw [oddPrimesUpTo_one]
  rfl

/-- The initial engine state is the canonical state at cursor 1. -/
theorem Inv_initState : Inv initState := by
  unfold Inv
  refine ⟨rfl, le_refl 1, ?_, ?_, ?_, ?_, ?_, ?_⟩ <;>
    simp [initState, oddPrimesUpTo_one, activeOf_one]

/-- The canonical characterisation holds after any number of iterations. -/
theorem Inv_engineAt : ∀ t, Inv (engineAt t)
  | 0 => Inv_initState
  | t + 1 => Inv_stepCand (Inv_engineAt t)

/-- After `t` iterations the cursor sits at `1 + 2 t`. -/
theorem engineAt_n : ∀ t, (engineAt t).n = 1 + 2 * t
  | 0 => rfl
  | t + 1 => by
    show (stepCand (engineAt t)).n = 1 + 2 * (t + 1)
    rw [stepCand_n, engineAt_n t]
    omega

/-- Raising the bound keeps the odd primes list a sublist. -/
theorem oddPrimes_sublist {a b : Nat} (h : a ≤ b) :
    (oddPrimesUpTo a).Sublist (oddPrimesUpTo b) :=
  List.Sublist.filter _ (List.range_sublist.mpr (by omega))

/-- Raising the bound extends the odd primes list at the end: the shorter
list is a prefix of the longer one. -/
theorem oddPrimes_isPre {a b : Nat} (h : a ≤ b) :
    oddPrimesUpTo a <+: oddPrimesUpTo b := by
  induction b with
  | zero =>
    have : a = 0 := by omega
    subst this
    exact List.prefix_rfl
  | succ k ih =>
    rcases Nat.lt_or_ge a (k + 1) with hlt | hge
    · refine (ih (by omega)).trans ?_
      unfold oddPrimesUpTo
      conv_rhs => rw [List.range_succ, List.filter_append]
      exact List.prefix_append _ _
    · have : a = k + 1 := by omega
      subst this
      exact List.prefix_rfl

/-- A sublist missing one member of its superlist is strictly shorter. -/
theorem sublist_length_lt {l₁ l₂ : List Nat} (hs : l₁.Sublist l₂) {p : Nat}
    (hp2 : p ∈ l₂) (hp1 : p ∉ l₁) : l₁.length + 1 ≤ l₂.length := by
  have h1 : l₁.erase p = l₁ := List.erase_of_not_mem hp1
  have h2 : (l₁.erase p).Sublist (l₂.erase p) := hs.erase p
  rw [h1] at h2
  have h3 := h2.length_le
  have h4 : (l₂.erase p).length = l₂.length - 1 := List.length_erase_of_mem hp2
  have h5 : 0 < l₂.length := List.length_pos.mpr (List.ne_nil_of_mem hp2)
  omega

/-- Bertrand-based lower bound on the prime-counting function: together
with the seed 2 there are at least `c` primes up to `2 ^ c`. -/
theorem primes_count_lower : ∀ c, 1 ≤ c → c ≤ 1 + (oddPrimesUpTo (2 ^ c)).length := by
  intro c
  induction c with
  | zero => omega
  | succ k ih =>
    intro _
    rcases Nat.eq_zero_or_pos k with rfl | hk
    · omega
    · have hkc := ih hk
      obtain ⟨p, hp, hgt, hle⟩ :=
        Nat.exists_prime_lt_and_le_two_mul (2 ^ k) (show (0:ℕ) < 2 ^ k by positivity).ne'
      have h2k : 2 ≤ 2 ^ k := by
        calc 2 = 2 ^ 1 := (pow_one 2).symm
        _ ≤ 2 ^ k := Nat.pow_le_pow_right (by omega) hk
      have hpow : 2 ^ (k + 1) = 2 ^ k * 2 := pow_succ 2 k
      have hp2 : p ∈ oddPrimesUpTo (2 ^ (k + 1)) := by
        rw [mem_oddPrimesUpTo]
        refine ⟨?_, hp, by omega⟩
        rcases hp.eq_two_or_odd with h | h
        · omega
        · exact h
      have hp1 : p ∉ oddPrimesUpTo (2 ^ k) := by
        rw [mem_oddPrimesUpTo]
        rintro ⟨_, _, hle2⟩
        omega
      have hsub := oddPrimes_sublist (show 2 ^ k ≤ 2 ^ (k + 1) by omega)
      have := sublist_length_lt hsub hp2 hp1
      omega

/-- Iterating the loop body, anchored at an arbitrary start state. -/
def iterStep : Nat → EngineState → EngineState
  | 0, s => s
  | t + 1, s => stepCand (iterStep t s)

/-- Iteration commutes with one application of the loop body. -/
theorem iterStep_succ_comm (t : Nat) (s : EngineState) :
    iterStep t (stepCand s) = stepCand (iterStep t s) := by
  induction t with
  | zero => rfl
  | succ k ih =>
    show stepCand (iterStep k (stepCand s)) = _
    rw [ih]
    rfl

/-- The indexed engine states are the iterates of the initial state. -/
theorem engineAt_eq_iter : ∀ t, engineAt t = iterStep t initState
  | 0 => rfl
  | t + 1 => by
    show stepCand (engineAt t) = stepCand (iterStep t initState)
    rw [engineAt_eq_iter t]

/-- Main loop correctness: from a canonical state not yet holding `count`
primes, and given enough fuel to reach `count` primes, the loop returns a
canonical state holding exactly `count` primes. -/
theorem sieveLoop_spec : ∀ (fuel count : Nat) (s : EngineState), Inv s →
    s.primes.length ≤ count →
    (∃ t, t ≤ fuel ∧ count ≤ (iterStep t s).primes.length) →
    Inv (sieveLoop count fuel s) ∧ (sieveLoop count fuel s).primes.length = count := by
  intro fuel
  induction fuel with
  | zero =>
    intro count s hinv hle h
    obtain ⟨t, ht, hc⟩ := h
    have ht0 : t = 0 := by omega
    subst ht0
    simp only [iterStep] at hc
    simp only [sieveLoop]
    exact ⟨hinv, by omega⟩
  | succ k ih =>
    intro count s hinv hle h
    obtain ⟨t, ht, hc⟩ := h
    simp only [sieveLoop]
    by_cases hlen : s.primes.length < count
    · rw [if_pos hlen]
      apply ih
      · exact Inv_stepCand hinv
      · rcases stepCand_primes_len s with h1 | h1 <;> omega
      · rcases t with _ | t1
        · simp only [iterStep] at hc
          omega
        · refine ⟨t1, by omega, ?_⟩
          show count ≤ (iterStep t1 (stepCand s)).primes.length
          rw [iterStep_succ_comm]
          exact hc
    · rw [if_neg hlen]
      exact ⟨hinv, by omega⟩

/-- For every target of at least two primes, the fuelled sieve run of the
engine terminates on a canonical state with exactly `c` primes. -/
theorem sieve_result (c : Nat) (hc : 2 ≤ c) :
    Inv (sieveLoop c (2 ^ c) initState) ∧
      (sieveLoop c (2 ^ c) initState).primes.length = c := by
  apply sieveLoop_spec
  · exact Inv_initState
  · show (1 : Nat) ≤ c
    omega
  · refine ⟨2 ^ (c - 1), ?_, ?_⟩
    · exact Nat.pow_le_pow_right (by omega) (by omega)
    · rw [← engineAt_eq_iter]
      obtain ⟨_, _, hp, _⟩ := Inv_engineAt (2 ^ (c - 1))
      rw [hp, List.length_cons]
      have hn := engineAt_n (2 ^ (c - 1))
      have h2c : 2 ^ c = 2 * 2 ^ (c - 1) := by
        rw [← pow_succ']
        congr 1
        omega
      have hcount := primes_count_lower c (by omega)
      have hmono :=
        (oddPrimes_sublist (show 2 ^ c ≤ 1 + 2 * 2 ^ (c - 1) by omega)).length_le
      rw [hn]
      omega

/-- For a requested count of at least 2, the engine returns the primes of
the final sieve state. -/
theorem generate_eq (count : Int) (h2 : 2 ≤ count) (b : Bool) :
    generate_primes_rns count b =
      ((sieveLoop count.toNat (2 ^ count.toNat) initState).primes,
        statsDict b (sieveLoop count.toNat (2 ^ count.toNat) initState)) := by
  unfold generate_primes_rns
  rw [if_neg (by omega), if_neg (by omega)]

/-- The prime list returned for a count of at least 2 is the canonical
initial segment of the primes: 2 followed by all odd primes up to some odd
bound, with exactly the requested length. -/
theorem generate_canon (count : Int) (h2 : 2 ≤ count) (b : Bool) :
    ∃ m, m % 2 = 1 ∧ 1 ≤ m ∧
      (generate_primes_rns count b).1 = 2 :: oddPrimesUpTo m ∧
      (generate_primes_rns count b).1.length = count.toNat := by
  have hc2 : 2 ≤ count.toNat := by omega
  obtain ⟨hinv, hlen⟩ := sieve_result count.toNat hc2
  obtain ⟨h1, hge, hp, _⟩ := hinv
  refine ⟨(sieveLoop count.toNat (2 ^ count.toNat) initState).n, h1, hge, ?_, ?_⟩
  · rw [generate_eq count h2 b]
    exact hp
  · rw [generate_eq count h2 b]
    exact hlen

/-- The canonical prime list is strictly increasing. -/
theorem canon_pairwise (m : Nat) : (2 :: oddPrimesUpTo m).Pairwise (· < ·) := by
  rw [List.pairwise_cons]
  refine ⟨?_, oddPrimes_pairwise m⟩
  intro x hx
  obtain ⟨h1, h2, _⟩ := mem_oddPrimesUpTo.mp hx
  have := h2.two_le
  omega

/-- Every member of the canonical prime list is prime. -/
theorem canon_prime (m : Nat) : ∀ p ∈ 2 :: oddPrimesUpTo m, Nat.Prime p := by
  intro p hp
  rcases List.mem_cons.mp hp with rfl | hp
  · exact Nat.prime_two
  · exact (mem_oddPrimesUpTo.mp hp).2.1

/-- Reading a mapped list within bounds commutes with the function. -/
theorem getD_map_lt {f : Nat → Nat} : ∀ (l : List Nat) (k : Nat), k < l.length →
    ∀ d e, (l.map f).getD k d = f (l.getD k e) := by
  intro l
  induction l with
  | nil =>
    intro k hk
    simp at hk
  | cons a t ih =>
    intro k hk d e
    cases k with
    | zero => rfl
    | succ j =>
      simp only [List.map_cons, List.getD_cons_succ]
      exact ih j (by simpa using hk) d e

/-- An in-bounds read belongs to the list. -/
theorem getD_mem_of_lt : ∀ (l : List Nat) (k : Nat), k < l.length →
    ∀ d, l.getD k d ∈ l := by
  intro l
  induction l with
  | nil =>
    intro k hk
    simp at hk
  | cons a t ih =>
    intro k hk d
    cases k with
    | zero =>
      rw [List.getD_cons_zero]
      exact List.mem_cons_self a t
    | succ j =>
      rw [List.getD_cons_succ]
      exact List.mem_cons_of_mem a (ih j (by simpa using hk) d)

/-- Every in-bounds digit of a reachable engine state is the residue of the
cursor modulo the corresponding active modulus, which is at least 3. -/
theorem engine_digit_facts (t k : Nat)
    (hk : k < (engineAt t).active_moduli.length) :
    (engineAt t).digits.getD k 0 =
      (engineAt t).n % ((engineAt t).active_moduli.getD k 0) ∧
    3 ≤ (engineAt t).active_moduli.getD k 0 := by
  obtain ⟨_, _, _, _, _, ham, hd, _⟩ := Inv_engineAt t
  constructor
  · rw [hd, ham]
    rw [ham] at hk
    exact getD_map_lt _ k hk 0 0
  · rw [ham] at hk ⊢
    exact mem_activeOf_three_le (getD_mem_of_lt _ k hk 0)

/-- Prepending the same head preserves the prefix relation. -/
theorem cons_isPre {a : Nat} {l₁ l₂ : List Nat} (h : l₁ <+: l₂) :
    (a :: l₁) <+: (a :: l₂) := by
  obtain ⟨t, ht⟩ := h
  exact ⟨t, by rw [← ht, List.cons_append]⟩

/-- C1: for every count at least 1, `generate_primes_rns(count)` returns
exactly `count` integers, strictly increasing, all prime, starting with 2;
in particular the results for counts 1, 5 and 10 are the listed prime
prefixes. -/
theorem claim_C1 :
    (∀ count : Int, 1 ≤ count →
      (generate_primes_rns count false).1.length = count.toNat ∧
      (generate_primes_rns count false).1.Pairwise (· < ·) ∧
      (∀ p ∈ (generate_primes_rns count false).1, Nat.Prime p) ∧
      (generate_primes_rns count false).1.head? = some 2) ∧
    (generate_primes_rns 1 false).1 = [2] ∧
    (generate_primes_rns 5 false).1 = [2, 3, 5, 7, 11] ∧
    (generate_primes_rns 10 false).1 = [2, 3, 5, 7, 11, 13, 17, 19, 23, 29] := by
  refine ⟨?_, rfl, rfl, rfl⟩
  intro count hc
  rcases eq_or_lt_of_le hc with h1 | h1
  · rw [← h1]
    have hg : (generate_primes_rns 1 false).1 = [2] := rfl
    refine ⟨rfl, ?_, ?_, ?_⟩
    · rw [hg]
      simp
    · rw [hg]
      intro p hp
      have hp2 : p = 2 := by simpa using hp
      subst hp2
      exact Nat.prime_two
    · rw [hg]
      rfl
  · have h2 : 2 ≤ count := h1
    obtain ⟨m, hm1, hm2, hlist, hlen⟩ := generate_canon count h2 false
    refine ⟨hlen, ?_, ?_, ?_⟩
    · rw [hlist]
      exact canon_pairwise m
    · rw [hlist]
      exact canon_prime m
    · rw [hlist]
      rfl

/-- Witness for C1 at the concrete count 5. -/
theorem claim_C1_witness :
    1 ≤ (5 : Int) ∧ (generate_primes_rns 5 false).1.length = (5 : Int).toNat :=
  ⟨by decide, (claim_C1.1 5 (by decide)).1⟩

/-- C2 counterexample: `generate_primes_rns(0)` does not fail; it returns
normally with an empty prime list and empty stats, so the claim that every
out-of-range count fails with an `InvalidCountError` inside the generate
operation is false on the code (no such exception exists in the source). -/
theorem claim_C2_counterexample :
    generate_primes_rns 0 false = ([], []) := rfl

/-- C2 as amended: the engine itself returns `([], {})` for counts below 1
without doing any work, and the range check with the `InvalidCountError`
behaviour lives in the CLI driver `main`, which rejects any count outside
[1, 1_000_000_000] with an error exit before invoking the engine. -/
theorem claim_C2_amended (cnt : Int) (b : Bool) :
    (cnt < 1 → generate_primes_rns cnt b = ([], [])) ∧
    (cnt < 1 ∨ 1000000000 < cnt →
      mainCheck cnt =
        Except.error "Error: cnt argument should be between 1 and 1,000,000") := by
  constructor
  · intro h
    unfold generate_primes_rns
    rw [if_pos h]
  · intro h
    unfold mainCheck
    rw [if_pos h]

/-- Witness for the amended C2 at counts 0 and 1_000_000_001. -/
theorem claim_C2_witness :
    generate_primes_rns 0 true = ([], []) ∧
      mainCheck 1000000001 =
        Except.error "Error: cnt argument should be between 1 and 1,000,000" :=
  ⟨(claim_C2_amended 0 true).1 (by decide),
   (claim_C2_amended 1000000001 true).2 (by omega)⟩

/-- C3: the naive immediate-activation sieve of src/Eric_RNS.py, as
committed, does NOT produce the same sequence as the deferred-activation
engine: already for a target of 3 primes it yields [2, 3, 7] (the prime 5 is
lost because the trial loop steps by 2 while the digits are advanced by 1),
whereas the deferred engine yields [2, 3, 5].  The extra fuel conjunct shows
the naive run has genuinely terminated (more fuel does not change it). -/
theorem claim_C3 :
    naivePrimes 3 10 = [2, 3, 7] ∧
    naivePrimes 3 50 = naivePrimes 3 10 ∧
    (generate_primes_rns 3 false).1 = [2, 3, 5] ∧
    naivePrimes 3 10 ≠ (generate_primes_rns 3 false).1 :=
  ⟨rfl, rfl, rfl, by decide⟩

/-- C4: in every reachable engine state the digits vector and the active
moduli vector have the same length, and each digit is exactly the cursor
modulo its modulus, lying in the interval below the modulus.  The step
function `stepCand` realises this using only the bounded addition and the
single conditional subtraction of `advanceDigits`; no division or modulus
operation occurs in any executable definition of the engine. -/
theorem claim_C4 (t k : Nat) :
    (engineAt t).digits.length = (engineAt t).active_moduli.length ∧
    (k < (engineAt t).active_moduli.length →
      (engineAt t).digits.getD k 0 =
        (engineAt t).n % ((engineAt t).active_moduli.getD k 0) ∧
      (engineAt t).digits.getD k 0 < (engineAt t).active_moduli.getD k 0) := by
  constructor
  · obtain ⟨_, _, _, _, _, ham, hd, _⟩ := Inv_engineAt t
    rw [hd, ham, List.length_map]
  · intro hk
    obtain ⟨hval, h3⟩ := engine_digit_facts t k hk
    refine ⟨hval, ?_⟩
    rw [hval]
    exact Nat.mod_lt _ (by omega)

/-- Witness for C4 in the state after 4 iterations (cursor 9, modulus 3). -/
theorem claim_C4_witness :
    0 < (engineAt 4).active_moduli.length ∧
    (engineAt 4).digits.getD 0 0 =
      (engineAt 4).n % ((engineAt 4).active_moduli.getD 0 0) :=
  ⟨by decide, ((claim_C4 4 0).2 (by decide)).1⟩

/-- C5: single-wrap sufficiency.  In every reachable state each digit lies
below its modulus, so after the bulk advance by the step 2 it exceeds the
modulus by at most 2, and the engine's single conditional subtraction
returns it below the modulus; no second subtraction is ever needed. -/
theorem claim_C5 (t k : Nat) (hk : k < (engineAt t).active_moduli.length) :
    (engineAt t).digits.getD k 0 < (engineAt t).active_moduli.getD k 0 ∧
    (engineAt t).digits.getD k 0 + 2 ≤ (engineAt t).active_moduli.getD k 0 + 2 ∧
    (if (engineAt t).digits.getD k 0 + 2 ≥ (engineAt t).active_moduli.getD k 0
      then (engineAt t).digits.getD k 0 + 2 - (engineAt t).active_moduli.getD k 0
      else (engineAt t).digits.getD k 0 + 2) <
        (engineAt t).active_moduli.getD k 0 := by
  obtain ⟨hval, h3⟩ := engine_digit_facts t k hk
  have hlt : (engineAt t).digits.getD k 0 < (engineAt t).active_moduli.getD k 0 := by
    rw [hval]
    exact Nat.mod_lt _ (by omega)
  refine ⟨hlt, by omega, ?_⟩
  rw [wrap_mod (by omega) hlt]
  exact Nat.mod_lt _ (by omega)

/-- Witness for C5 in the state after 5 iterations (cursor 11, modulus 3,
digit 2, where the next advance does wrap). -/
theorem claim_C5_witness :
    0 < (engineAt 5).active_moduli.length ∧
    (engineAt 5).digits.getD 0 0 < (engineAt 5).active_moduli.getD 0 0 :=
  ⟨by decide, (claim_C5 5 0 (by decide)).1⟩

/-- C6: pending-activation discipline.  In every reachable state the queue
of scheduled squares is strictly ascending; a prime is an active modulus
exactly when it has been discovered (entered the pending queue) and the
cursor has reached its square; the active moduli hold no duplicates (each
prime is activated at most once); and at the very iteration where the
cursor equals an active modulus squared, that modulus digit is 0;
afterwards the membership equivalence keeps it active for good. -/
theorem claim_C6 (t : Nat) :
    (engineAt t).pending_squares.Pairwise (· < ·) ∧
    (∀ p, p ∈ (engineAt t).active_moduli ↔
      p ∈ (engineAt t).pending_primes ∧ p * p ≤ (engineAt t).n) ∧
    (engineAt t).active_moduli.Nodup ∧
    (∀ k, k < (engineAt t).active_moduli.length →
      (engineAt t).active_moduli.getD k 0 * (engineAt t).active_moduli.getD k 0 =
        (engineAt t).n →
      (engineAt t).digits.getD k 0 = 0) := by
  obtain ⟨_, _, _, hpp, hps, ham, hd, _⟩ := Inv_engineAt t
  refine ⟨?_, ?_, ?_, ?_⟩
  · rw [hps, List.pairwise_map]
    exact (oddPrimes_pairwise _).imp (fun h => sq_lt_sq h) |>.imp (fun h => h) |>.imp id
  · intro p
    rw [ham, hpp, mem_activeOf, mem_oddPrimesUpTo]
    constructor
    · rintro ⟨h1, h2, h3⟩
      have hp : 0 < p := h2.pos
      refine ⟨⟨h1, h2, ?_⟩, h3⟩
      calc p ≤ p * p := Nat.le_mul_of_pos_left p hp
      _ ≤ (engineAt t).n := h3
    · rintro ⟨⟨h1, h2, _⟩, h4⟩
      exact ⟨h1, h2, h4⟩
  · rw [ham]
    exact (activeOf_pairwise _).nodup
  · intro k hk hsq
    obtain ⟨hval, h3⟩ := engine_digit_facts t k hk
    rw [hval, ← hsq]
    exact Nat.mul_mod_left _ _

/-- Witness for C6 in the state after 4 iterations, where the cursor 9 is
exactly the square of the just-activated modulus 3 and its digit is 0. -/
theorem claim_C6_witness :
    0 < (engineAt 4).active_moduli.length ∧
    (engineAt 4).active_moduli.getD 0 0 * (engineAt 4).active_moduli.getD 0 0 =
      (engineAt 4).n ∧
    (engineAt 4).digits.getD 0 0 = 0 :=
  ⟨by decide, by decide, (claim_C6 4).2.2.2 0 (by decide) (by decide)⟩

/-- C7: for every count at least 1 and every non-negative increment, the
prime list returned for the smaller count is a prefix of the one returned
for the larger count. -/
theorem claim_C7 (n k : Int) (hn : 1 ≤ n) (hk : 0 ≤ k) :
    (generate_primes_rns n false).1 <+: (generate_primes_rns (n + k) false).1 := by
  rcases eq_or_lt_of_le hn with h1 | h1
  · subst h1
    rcases eq_or_lt_of_le hk with h0 | h0
    · subst h0
      rw [show (1 : Int) + 0 = 1 by omega]
    · have h2 : 2 ≤ 1 + k := by omega
      obtain ⟨m, _, _, hlist, _⟩ := generate_canon (1 + k) h2 false
      rw [hlist]
      exact ⟨oddPrimesUpTo m, rfl⟩
  · have h2 : 2 ≤ n := h1
    have h2' : 2 ≤ n + k := by omega
    obtain ⟨m1, _, _, hlist1, hlen1⟩ := generate_canon n h2 false
    obtain ⟨m2, _, _, hlist2, hlen2⟩ := generate_canon (n + k) h2' false
    rw [hlist1, hlist2]
    rcases le_total m1 m2 with hm | hm
    · exact cons_isPre (oddPrimes_isPre hm)
    · have hpre := oddPrimes_isPre hm
      have hl1 : (oddPrimesUpTo m1).length = n.toNat - 1 := by
        rw [hlist1] at hlen1
        simp only [List.length_cons] at hlen1
        omega
      have hl2 : (oddPrimesUpTo m2).length = (n + k).toNat - 1 := by
        rw [hlist2] at hlen2
        simp only [List.length_cons] at hlen2
        omega
      have heq : oddPrimesUpTo m2 = oddPrimesUpTo m1 := by
        apply hpre.eq_of_length
        have := hpre.length_le
        omega
      rw [heq]

/-- Witness for C7 at counts 2 and 2 + 1. -/
theorem claim_C7_witness :
    1 ≤ (2 : Int) ∧ 0 ≤ (1 : Int) ∧
      (generate_primes_rns 2 false).1 <+: (generate_primes_rns (2 + 1) false).1 :=
  ⟨by decide, by decide, claim_C7 2 1 (by decide) (by decide)⟩

/-- C8: stats accounting of one scan iteration, on every state: the
increment counter grows by one per digit touched by the bulk advance, the
wrap counter by one per index whose advanced digit reached its modulus, the
zero-check counter by exactly one, and the multiply counter by one exactly
when a new prime was discovered (and appended); and for a count of 1 the
engine returns immediately with the zero-valued stats record. -/
theorem claim_C8 :
    (∀ s : EngineState,
      (stepCand s).digit_increments = s.digit_increments + s.digits.length ∧
      (stepCand s).digit_wraps = s.digit_wraps +
        (List.zipWith (fun x m => decide (x + 2 ≥ m))
          s.digits s.active_moduli).count true ∧
      (stepCand s).zero_checks = s.zero_checks + 1 ∧
      (stepCand s).square_multiplies =
        s.square_multiplies + ((stepCand s).primes.length - s.primes.length)) ∧
    (∀ b : Bool, generate_primes_rns 1 b =
      ([2], [("square_multiplies", 0), ("digit_increments", 0),
             ("digit_wraps", 0), ("zero_checks", 0)])) := by
  constructor
  · intro s
    refine ⟨?_, ?_, ?_, ?_⟩
    · simp only [stepCand]
      split
      · show (if s.digits.length ≠ 0 then s.digit_increments + s.digits.length
          else s.digit_increments) = _
        split <;> omega
      · show (if s.digits.length ≠ 0 then s.digit_increments + s.digits.length
          else s.digit_increments) = _
        split <;> omega
    · simp only [stepCand]
      split
      · show s.digit_wraps + (wrapMask (s.digits.map (fun x => x + 2))
          s.active_moduli).count true = _
        rw [wrapMask_map]
      · show s.digit_wraps + (wrapMask (s.digits.map (fun x => x + 2))
          s.active_moduli).count true = _
        rw [wrapMask_map]
    · simp only [stepCand]
      split <;> rfl
    · simp only [stepCand]
      split
      · show s.square_multiplies = s.square_multiplies +
          (s.primes.length - s.primes.length)
        omega
      · show s.square_multiplies + 1 = s.square_multiplies +
          ((s.primes ++ [s.n + 2]).length - s.primes.length)
        rw [List.length_append]
        simp
  · intro b
    rfl

/-- C9: shape of the returned stats dictionary.  For count 1 it always has
exactly the four zero-valued counter keys and the `collect_stats` flag is
ignored; for any count at least 2 the dictionary is empty when stats are not
collected, and has exactly the seven keys, including `total_primes_found`,
`active_moduli_final` and `max_prime`, when they are. -/
theorem claim_C9 :
    (generate_primes_rns 1 false).2 =
      [("square_multiplies", 0), ("digit_increments", 0),
       ("digit_wraps", 0), ("zero_checks", 0)] ∧
    generate_primes_rns 1 true = generate_primes_rns 1 false ∧
    (∀ count : Int, 2 ≤ count →
      (generate_primes_rns count false).2 = [] ∧
      (generate_primes_rns count true).2.map Prod.fst =
        ["total_primes_found", "square_multiplies", "digit_increments",
         "digit_wraps", "zero_checks", "active_moduli_final", "max_prime"]) := by
  refine ⟨rfl, rfl, ?_⟩
  intro count h2
  rw [generate_eq count h2 false, generate_eq count h2 true]
  exact ⟨rfl, rfl⟩

/-- Witness for C9 at the concrete count 2. -/
theorem claim_C9_witness :
    2 ≤ (2 : Int) ∧ (generate_primes_rns 2 false).2 = [] :=
  ⟨by decide, (claim_C9.2.2 2 (by decide)).1⟩

/-- C10: the seed prime 2 never enters the active moduli or the pending
queue: in every reachable state, every entry of either container is an odd
prime at least 3, in particular different from 2. -/
theorem claim_C10 (t : Nat) (p : Nat)
    (h : p ∈ (engineAt t).active_moduli ∨ p ∈ (engineAt t).pending_primes) :
    p % 2 = 1 ∧ 3 ≤ p ∧ Nat.Prime p ∧ p ≠ 2 := by
  obtain ⟨_, _, _, hpp, _, ham, _, _⟩ := Inv_engineAt t
  rcases h with h | h
  · rw [ham] at h
    obtain ⟨h1, h2, _⟩ := mem_activeOf.mp h
    have := h2.two_le
    exact ⟨h1, by omega, h2, by omega⟩
  · rw [hpp] at h
    obtain ⟨h1, h2, _⟩ := mem_oddPrimesUpTo.mp h
    have := h2.two_le
    exact ⟨h1, by omega, h2, by omega⟩

/-- Witness for C10: the modulus 3, active after 4 iterations. -/
theorem claim_C10_witness :
    (3 ∈ (engineAt 4).active_moduli ∨ 3 ∈ (engineAt 4).pending_primes) ∧
      3 % 2 = 1 ∧ 3 ≤ 3 ∧ Nat.Prime 3 ∧ 3 ≠ 2 :=
  ⟨Or.inl (by decide), claim_C10 4 3 (Or.inl (by decide))⟩

end RNS
